import Mathlib

/-!
# Verification of the justgrep retrieval-and-filter pipeline

Shallow embedding of the justgrep sources:

* `src/justlog_api.go` — the Pager (`NextLogFile`, built on Go's
  `time.Time.AddDate`), the URL builders (`MakeURL`) and the streaming
  Fetcher (`fetch`).
* `src/unnamed/part_000` — the CLI `main` (filter/API-variant selection)
  and the per-channel paging loop `searchLogs`.

The filter engine (`justgrep.StreamFilter`, `justgrep.Filter`,
`justgrep.FilterResult`) lives in library code that is not part of the
sources; where a claim depends on it, it is modelled from the spec
(definitions marked `Modelled from the spec:`).

Dates: Go `time.Time` values are instants; `AddDate` preserves the clock
time and normalizes the calendar fields, so at the day granularity used by
the pager a date is faithfully represented by its `(year, month, day)`
triple and ordering of instants coincides with ordering of epoch day
numbers (`toDays`).
-/

namespace Justgrep

/-! ## Calendar arithmetic (Go `time` package semantics) -/

/-- Go `time.isLeap`: leap year in the proleptic Gregorian calendar. -/
def isLeap (y : Nat) : Bool :=
  y % 4 == 0 && (y % 100 != 0 || y % 400 == 0)

/-- Length of month `m` (1..12) of year `y`, as in Go's `daysIn`. -/
def daysInMonth (y m : Nat) : Nat :=
  match m with
  | 2 => if isLeap y then 29 else 28
  | 4 | 6 | 9 | 11 => 30
  | _ => 31

/-- Days in year `y` strictly before month `m` (Go's `daysBefore` table,
with the leap adjustment applied for months past February). -/
def daysBeforeMonth (y m : Nat) : Nat :=
  let l : Nat := if isLeap y then 1 else 0
  match m with
  | 1 => 0
  | 2 => 31
  | 3 => 59 + l
  | 4 => 90 + l
  | 5 => 120 + l
  | 6 => 151 + l
  | 7 => 181 + l
  | 8 => 212 + l
  | 9 => 243 + l
  | 10 => 273 + l
  | 11 => 304 + l
  | _ => 334 + l

/-- Number of leap years in `[1, y]`. -/
def leapsBefore (y : Nat) : Nat :=
  y / 4 - y / 100 + y / 400

/-- Days strictly before January 1 of year `y` (epoch: day 0 = 0001-01-01),
for `1 ≤ y`. -/
def daysBeforeYear (y : Nat) : Nat :=
  365 * (y - 1) + leapsBefore (y - 1)

/-- A calendar date as Go's `Year()/Month()/Day()` report it. -/
structure Date where
  y : Nat
  m : Nat
  d : Nat
deriving DecidableEq

/-- Epoch day number of a date, mirroring Go's absolute-day computation in
`time.Date` (`daysSinceEpoch + daysBefore[month] + day - 1`). The day field
may exceed the month length; Go simply adds the excess days, and so does
this formula. -/
def toDays (dt : Date) : Int :=
  (daysBeforeYear dt.y : Int) + daysBeforeMonth dt.y dt.m + dt.d - 1

/-- A well-formed calendar date (what `Year()/Month()/Day()` of a real
`time.Time` can produce), restricted to years ≥ 1. -/
def Date.Valid (dt : Date) : Prop :=
  1 ≤ dt.y ∧ 1 ≤ dt.m ∧ dt.m ≤ 12 ∧ 1 ≤ dt.d ∧ dt.d ≤ daysInMonth dt.y dt.m

instance (dt : Date) : Decidable dt.Valid := by
  unfold Date.Valid; infer_instance

/-- Normalization of month `m - 1`, as Go's `norm` does inside
`time.Date` when `AddDate(0, -1, 0)` passes month index `m - 1`. -/
def prevYM (y m : Nat) : Nat × Nat :=
  if m ≤ 1 then (y - 1, 12) else (y, m - 1)

/-- Epoch day number produced by Go's
`UserJustlogAPI.NextLogFile = currentDate.AddDate(0, -1, 0)`
(src/justlog_api.go line 61): same day field, previous month, then the
absolute-day formula of `time.Date`. -/
def userNextDays (dt : Date) : Int :=
  toDays ⟨(prevYM dt.y dt.m).1, (prevYM dt.y dt.m).2, dt.d⟩

/-- Calendar normalization of a possibly-too-large day field: Go's
`time.Date` simply adds the excess days, which (for day ≤ 31) rolls at
most into the following month. -/
def rollForward (y m d : Nat) : Date :=
  if d ≤ daysInMonth y m then ⟨y, m, d⟩
  else if m ≤ 11 then ⟨y, m + 1, d - daysInMonth y m⟩
  else ⟨y + 1, 1, d - daysInMonth y m⟩

/-- The calendar date reported for the result of
`currentDate.AddDate(0, -1, 0)` (per-user pager step,
src/justlog_api.go line 61). -/
def userNext (dt : Date) : Date :=
  rollForward (prevYM dt.y dt.m).1 (prevYM dt.y dt.m).2 dt.d

/-- The calendar date reported for the result of
`currentDate.AddDate(0, 0, -1)` (channel pager step,
src/justlog_api.go line 78): the previous calendar day. -/
def channelNext (dt : Date) : Date :=
  if 2 ≤ dt.d then ⟨dt.y, dt.m, dt.d - 1⟩
  else if 2 ≤ dt.m then ⟨dt.y, dt.m - 1, daysInMonth dt.y (dt.m - 1)⟩
  else ⟨dt.y - 1, 12, 31⟩

/-- The day number `n` falls inside calendar month `(y, m)`. -/
def inMonth (y m : Nat) (n : Int) : Prop :=
  toDays ⟨y, m, 1⟩ ≤ n ∧ n ≤ toDays ⟨y, m, daysInMonth y m⟩

instance (y m : Nat) (n : Int) : Decidable (inMonth y m n) := by
  unfold inMonth; infer_instance

/-! ## URL construction (src/justlog_api.go `MakeURL`) -/

/-- `ChannelJustlogAPI.MakeURL` (src/justlog_api.go line 82):
`fmt.Sprintf("%s/channel/%s/%d/%d/%d?raw&reverse", URL, Channel, Year, Month, Day)`. -/
def channelMakeURL (url channel : String) (dt : Date) : String :=
  url ++ "/channel/" ++ channel ++ "/" ++ toString dt.y ++ "/" ++ toString dt.m
      ++ "/" ++ toString dt.d ++ "?raw&reverse"

/-- `UserJustlogAPI.MakeURL` (src/justlog_api.go lines 64-69): the
`userid` path segment when `IsId`, the `user` segment otherwise;
`fmt.Sprintf("%s/channel/%s/user(id)/%s/%d/%d?raw&reverse", URL, Channel, User, Year, Month)`. -/
def userMakeURL (url channel user : String) (isId : Bool) (dt : Date) : String :=
  if isId then
    url ++ "/channel/" ++ channel ++ "/userid/" ++ user ++ "/" ++ toString dt.y
        ++ "/" ++ toString dt.m ++ "?raw&reverse"
  else
    url ++ "/channel/" ++ channel ++ "/user/" ++ user ++ "/" ++ toString dt.y
        ++ "/" ++ toString dt.m ++ "?raw&reverse"

/-- Request shape the spec prescribes for a channel-wide page:
`{instance}/channel/{channel}/{year}/{month}/{day}?raw&reverse`. -/
def specChannelPageURL (inst channel : String) (y m d : Nat) : String :=
  inst ++ "/channel/" ++ channel ++ "/" ++ toString y ++ "/" ++ toString m
      ++ "/" ++ toString d ++ "?raw&reverse"

/-- Request shape the spec prescribes for a per-user page by name:
`{instance}/channel/{channel}/user/{user}/{year}/{month}?raw&reverse`. -/
def specUserPageURL (inst channel user : String) (y m : Nat) : String :=
  inst ++ "/channel/" ++ channel ++ "/user/" ++ user ++ "/" ++ toString y
      ++ "/" ++ toString m ++ "?raw&reverse"

/-- Request shape the spec prescribes for a per-user page by id:
`{instance}/channel/{channel}/userid/{id}/{year}/{month}?raw&reverse`. -/
def specUserIdPageURL (inst channel user : String) (y m : Nat) : String :=
  inst ++ "/channel/" ++ channel ++ "/userid/" ++ user ++ "/" ++ toString y
      ++ "/" ++ toString m ++ "?raw&reverse"

/-! ## The Fetcher (src/justlog_api.go `fetch`)

The goroutine body is

```
for scanner.Scan() {
    output <- NewMessage(scanner.Text())
    if *cancel { break }
}
output <- nil
```

so the cancellation flag is read once after each emitted line.  We model
the response body as the list of its lines (`none` for a transport
failure before any body exists) and the flag as the index `cancelAt` of
the first post-emission check at which it reads `true` (a flag that is
never set is `cancelAt ≥` number of lines). -/

/-- Lines emitted by the scan loop: one full line per iteration, stopping
after the emission whose following flag check reads `true`. -/
def emitLoop : List String → Nat → List String
  | [], _ => []
  | l :: _, 0 => [l]
  | l :: ls, k + 1 => l :: emitLoop ls k

/-- Everything `fetch` puts on its output channel (`some line` per record,
`none` for the final nil end marker), plus whether it returned a
transport error instead. -/
structure FetchOut where
  emitted : List (Option String)
  transportError : Bool
deriving DecidableEq

/-- `fetch` (src/justlog_api.go lines 15-39): a request/transport failure
returns the error before the reading goroutine is started, so nothing is
emitted; otherwise the scan loop runs and the nil end marker follows it. -/
def fetchGo (resp : Option (List String)) (cancelAt : Nat) : FetchOut :=
  match resp with
  | none => ⟨[], true⟩
  | some lines => ⟨(emitLoop lines cancelAt).map some ++ [none], false⟩

/-! ## The Classifier (spec §4.3), modelled from the spec

`justgrep.StreamFilter` is library code not present under the sources;
everything below follows the spec's words. -/

/-- Outcome categories of spec §3 (OutcomeCategory), a closed enumeration. -/
inductive Category
  | accepted
  | typeMismatch
  | userMismatch
  | textMismatch
  | dateBeforeStart
  | maxCountReached
deriving DecidableEq

/-- Username match modes of spec §3: disabled / exact / regex
(`justgrep.DontMatch`, `justgrep.MatchExact`, `justgrep.MatchRegex` in
src/unnamed/part_000). -/
inductive MatchMode
  | dontMatch
  | matchExact
  | matchRegex
deriving DecidableEq

/-- One archive record, abstracted to the facts the classifier consults:
its timestamp and the boolean outcomes of the individual checks against
the (fixed per run) configuration. -/
structure Rec where
  ts : Int
  typeOk : Bool
  userEq : Bool
  userRegexOk : Bool
  negMatches : Bool
  textOk : Bool
deriving DecidableEq

/-- The per-run match configuration (spec §3 MatchConfig), reduced to the
fields the modelled checks consume. -/
structure FilterCfg where
  startTs : Int
  hasTypes : Bool
  matchMode : MatchMode
  maxCount : Nat
deriving DecidableEq

/-- Modelled from the spec (§4.3 step 3): the positive username check;
with the mode disabled it never rejects. -/
def posRejects : MatchMode → Rec → Bool
  | .dontMatch, _ => false
  | .matchExact, r => !r.userEq
  | .matchRegex, r => !r.userRegexOk

/-- Modelled from the spec (§4.3 steps 1-5): `evaluate(record, config)`,
the fixed priority order choosing exactly one category per record. -/
def evalRecord (cfg : FilterCfg) (r : Rec) : Category :=
  if r.ts < cfg.startTs then .dateBeforeStart
  else if cfg.hasTypes && !r.typeOk then .typeMismatch
  else if r.negMatches then .userMismatch
  else if posRejects cfg.matchMode r then .userMismatch
  else if !r.textOk then .textMismatch
  else .accepted

/-- Modelled from the spec (§4.3 step 5 and closing paragraph): the
streaming classifier over one page.  `prior` is the run-wide `Accepted`
total before this record; once the non-zero cutoff has been reached the
next record resolves `MaxCountReached` instead of being evaluated, and a
terminal category (`DateBeforeStart`, `MaxCountReached`) stops the
classifier from reading further input.  Returns the category resolved for
each record examined, in order. -/
def streamFilter (cfg : FilterCfg) : Nat → List Rec → List Category
  | _, [] => []
  | prior, r :: rs =>
    if cfg.maxCount ≠ 0 ∧ cfg.maxCount ≤ prior then [.maxCountReached]
    else
      let c := evalRecord cfg r
      if c = .dateBeforeStart then [c]
      else c :: streamFilter cfg (prior + if c = .accepted then 1 else 0) rs

/-- The per-category totals array (`ProgressState.TotalResults`, one slot
per `FilterResult`, indexed `Accepted` first as `ResultOk` is). -/
structure Counts where
  accepted : Nat
  typeMismatch : Nat
  userMismatch : Nat
  textMismatch : Nat
  dateBeforeStart : Nat
  maxCountReached : Nat
deriving DecidableEq

/-- The all-zero totals `main` starts the run with
(src/unnamed/part_000 lines 325-328). -/
def Counts.zero : Counts := ⟨0, 0, 0, 0, 0, 0⟩

/-- Pointwise accumulation `progress.TotalResults[result] += count`
(src/unnamed/part_000 lines 495-497). -/
def Counts.add (a b : Counts) : Counts :=
  ⟨a.accepted + b.accepted, a.typeMismatch + b.typeMismatch,
   a.userMismatch + b.userMismatch, a.textMismatch + b.textMismatch,
   a.dateBeforeStart + b.dateBeforeStart, a.maxCountReached + b.maxCountReached⟩

/-- Sum over all category slots. -/
def Counts.sum (a : Counts) : Nat :=
  a.accepted + a.typeMismatch + a.userMismatch + a.textMismatch
    + a.dateBeforeStart + a.maxCountReached

/-- The per-page results array `StreamFilter` hands back: a tally of the
category list. -/
def tally (cs : List Category) : Counts :=
  ⟨cs.count .accepted, cs.count .typeMismatch, cs.count .userMismatch,
   cs.count .textMismatch, cs.count .dateBeforeStart, cs.count .maxCountReached⟩

/-! ## The Orchestrator (src/unnamed/part_000 `searchLogs` and `main`) -/

/-- Why a channel's paging loop stopped. -/
inductive StopReason
  | fetchErrorStop
  | terminal
  | fuelOut
deriving DecidableEq

/-- Result of one channel's paging loop: final run-wide totals, the
(ghost) count of records the classifier examined, the stop reason, and
the page dates fetched, in order. -/
structure LoopOut where
  totals : Counts
  examined : Nat
  reason : StopReason
  pages : List Date
deriving DecidableEq

/-- The paging loop of `searchLogs` (src/unnamed/part_000 lines 432-501):
fetch the page for the current date (an archive is a map from page date
to the page's records, `none` meaning the fetch failed); on fetch error
break immediately; otherwise run the classifier, accumulate its results
array into the run totals, and break when the page resolved
`DateBeforeStart` or `MaxCountReached`, else continue at `NextLogFile` of
the date.  `fuel` bounds the unrolling (the Go loop has no intrinsic
bound); `examined` is a ghost counter of records the classifier consumed. -/
def searchLogs (cfg : FilterCfg) (arch : Date → Option (List Rec))
    (next : Date → Date) : Nat → Date → Counts → Nat → LoopOut
  | 0, _, totals, ex => ⟨totals, ex, .fuelOut, []⟩
  | fuel + 1, date, totals, ex =>
    match arch date with
    | none => ⟨totals, ex, .fetchErrorStop, [date]⟩
    | some recs =>
      let cs := streamFilter cfg totals.accepted recs
      let pageResults := tally cs
      let totals' := totals.add pageResults
      let ex' := ex + cs.length
      if pageResults.dateBeforeStart ≠ 0 ∨ pageResults.maxCountReached ≠ 0 then
        ⟨totals', ex', .terminal, [date]⟩
      else
        let r := searchLogs cfg arch next fuel (next date) totals' ex'
        ⟨r.totals, r.examined, r.reason, date :: r.pages⟩

/-- The channel loop of `main` (src/unnamed/part_000 lines 329-352): the
channels are searched strictly sequentially against one shared
`ProgressState`, and after the loop the summary reads the final totals.
Returns (final totals, total records examined, per-channel outcomes). -/
def runChannels (cfg : FilterCfg) (next : Date → Date) (endDate : Date)
    (fuel : Nat) : List (Date → Option (List Rec)) → Counts → Nat →
    Counts × Nat × List LoopOut
  | [], totals, ex => (totals, ex, [])
  | arch :: rest, totals, ex =>
    let o := searchLogs cfg arch next fuel endDate totals ex
    let t := runChannels cfg next endDate fuel rest o.totals o.examined
    (t.1, t.2.1, o :: t.2.2)

/-! ## CLI filter and API-variant selection (src/unnamed/part_000 `main`) -/

/-- The match mode `main` computes first (lines 268-274): `DontMatch`
unless a positive or negative username was given (`MatchExact`), the
regex flag overriding both (`MatchRegex`). -/
def cliMatchMode (user notUser : String) (isRegex : Bool) : MatchMode :=
  let m0 := if user ≠ "" ∨ notUser ≠ "" then MatchMode.matchExact else .dontMatch
  if isRegex then .matchRegex else m0

/-- The match mode actually left in the filter after the fixup at lines
320-323: a concrete (non-regex) username disables the positive check,
because the per-user log endpoint already restricts records to that user. -/
def effectiveMatchMode (user notUser : String) (isRegex : Bool) : MatchMode :=
  if user ≠ "" ∧ isRegex = false then .dontMatch
  else cliMatchMode user notUser isRegex

/-- API-variant selection at lines 345-350: the per-user (month) endpoint
exactly when a concrete, non-regex username was supplied. -/
def selectsUserApi (user : String) (isRegex : Bool) : Bool :=
  user != "" && !isRegex

/-! ## Calendar lemmas -/

theorem isLeap_iff (y : Nat) :
    isLeap y = true ↔ (y % 4 = 0 ∧ y % 100 ≠ 0) ∨ y % 400 = 0 := by
  simp only [isLeap, Bool.and_eq_true, beq_iff_eq, Bool.or_eq_true, bne_iff_ne, ne_eq]
  omega

theorem leapsBefore_succ (y : Nat) :
    leapsBefore (y + 1) = leapsBefore y + (if isLeap (y + 1) then 1 else 0) := by
  have h := isLeap_iff (y + 1)
  cases hb : isLeap (y + 1) <;> rw [hb] at h <;> simp only [leapsBefore] <;> simp at h ⊢ <;> omega

theorem daysBeforeYear_succ (y : Nat) (h : 1 ≤ y) :
    daysBeforeYear (y + 1) = daysBeforeYear y + 365 + (if isLeap y then 1 else 0) := by
  have key := leapsBefore_succ (y - 1)
  have hy : y - 1 + 1 = y := by omega
  rw [hy] at key
  simp only [daysBeforeYear, Nat.add_sub_cancel, key]
  omega

theorem dim_lb (y m : Nat) : 28 ≤ daysInMonth y m := by
  unfold daysInMonth
  split <;> first | (split <;> omega) | omega

theorem dim_ub (y m : Nat) : daysInMonth y m ≤ 31 := by
  unfold daysInMonth
  split <;> first | (split <;> omega) | omega

theorem dbm_add_dim (y m : Nat) (h1 : 1 ≤ m) (h2 : m ≤ 11) :
    daysBeforeMonth y m + daysInMonth y m = daysBeforeMonth y (m + 1) := by
  interval_cases m <;> cases hL : isLeap y <;>
    simp [daysBeforeMonth, daysInMonth, hL]

theorem dbm_dim_le (y m : Nat) (h1 : 1 ≤ m) (h2 : m ≤ 12) :
    daysBeforeMonth y m + daysInMonth y m ≤ 365 + (if isLeap y then 1 else 0) := by
  interval_cases m <;> cases hL : isLeap y <;>
    simp [daysBeforeMonth, daysInMonth, hL]

theorem toDays_channelNext (dt : Date) (h : dt.Valid) (hy : 2 ≤ dt.y) :
    toDays (channelNext dt) = toDays dt - 1 := by
  obtain ⟨hy1, hm1, hm12, hd1, hd2⟩ := h
  unfold channelNext
  split
  · next hd => simp only [toDays]; omega
  · split
    · next hd hm =>
      have key := dbm_add_dim dt.y (dt.m - 1) (by omega) (by omega)
      have hmm : dt.m - 1 + 1 = dt.m := by omega
      rw [hmm] at key
      simp only [toDays]
      omega
    · next hd hm =>
      have hm1' : dt.m = 1 := by omega
      have key := daysBeforeYear_succ (dt.y - 1) (by omega)
      have hyy : dt.y - 1 + 1 = dt.y := by omega
      rw [hyy] at key
      have hd1' : dt.d = 1 := by omega
      simp only [toDays, hm1', hd1']
      cases hL : isLeap (dt.y - 1) <;>
        simp only [daysBeforeMonth, hL, Bool.false_eq_true, if_true, if_false] at key ⊢ <;>
        push_cast <;> omega

theorem valid_channelNext (dt : Date) (h : dt.Valid) (hy : 2 ≤ dt.y) :
    (channelNext dt).Valid := by
  obtain ⟨hy1, hm1, hm12, hd1, hd2⟩ := h
  have h28 := dim_lb dt.y (dt.m - 1)
  have h31 : daysInMonth (dt.y - 1) 12 = 31 := by simp [daysInMonth]
  unfold channelNext Date.Valid
  split
  · dsimp only; omega
  · split
    · dsimp only; omega
    · dsimp only; omega

theorem userNextDays_eq (dt : Date) (h : dt.Valid) (hy : 2 ≤ dt.y) :
    userNextDays dt
      = toDays dt - daysInMonth (prevYM dt.y dt.m).1 (prevYM dt.y dt.m).2 := by
  obtain ⟨hy1, hm1, hm12, hd1, hd2⟩ := h
  unfold userNextDays prevYM
  split
  · next hm =>
    have hm1' : dt.m = 1 := by omega
    have key := daysBeforeYear_succ (dt.y - 1) (by omega)
    have hyy : dt.y - 1 + 1 = dt.y := by omega
    rw [hyy] at key
    simp only [toDays, hm1']
    cases hL : isLeap (dt.y - 1) <;>
      simp only [daysBeforeMonth, daysInMonth, hL, Bool.false_eq_true, if_true, if_false]
        at key ⊢ <;>
      push_cast <;> omega
  · next hm =>
    have key := dbm_add_dim dt.y (dt.m - 1) (by omega) (by omega)
    have hmm : dt.m - 1 + 1 = dt.m := by omega
    rw [hmm] at key
    simp only [toDays]
    omega

theorem dim_le_31_cast (y m : Nat) : (daysInMonth y m : Int) ≤ 31 := by
  exact_mod_cast dim_ub y m

theorem toDays_userNext (dt : Date) (h : dt.Valid) (hy : 2 ≤ dt.y) :
    toDays (userNext dt) = userNextDays dt ∧ (userNext dt).Valid := by
  obtain ⟨hy1, hm1, hm12, hd1, hd2⟩ := h
  have hdub : dt.d ≤ 31 := le_trans hd2 (dim_ub dt.y dt.m)
  have hpy : 1 ≤ (prevYM dt.y dt.m).1 := by
    unfold prevYM; split <;> dsimp only <;> omega
  have hpm1 : 1 ≤ (prevYM dt.y dt.m).2 := by
    unfold prevYM; split <;> dsimp only <;> omega
  have hpm12 : (prevYM dt.y dt.m).2 ≤ 12 := by
    unfold prevYM; split <;> dsimp only <;> omega
  unfold userNext rollForward
  split
  · next hfit =>
    exact ⟨rfl, hpy, hpm1, hpm12, hd1, hfit⟩
  · next hover =>
    split
    · next hm11 =>
      have key := dbm_add_dim (prevYM dt.y dt.m).1 (prevYM dt.y dt.m).2 hpm1 hm11
      have h28a := dim_lb (prevYM dt.y dt.m).1 (prevYM dt.y dt.m).2
      have h28b := dim_lb (prevYM dt.y dt.m).1 ((prevYM dt.y dt.m).2 + 1)
      constructor
      · unfold userNextDays
        simp only [toDays]
        omega
      · refine ⟨hpy, ?_, ?_, ?_, ?_⟩ <;> dsimp only <;> omega
    · next hm11 =>
      exfalso
      have hpm12' : (prevYM dt.y dt.m).2 = 12 := by omega
      rw [hpm12'] at hover
      simp only [daysInMonth] at hover
      omega

theorem toDays_lb_of_year (dt : Date) (h : dt.Valid) (hy : 2 ≤ dt.y) :
    (365 : Int) ≤ toDays dt := by
  obtain ⟨hy1, hm1, hm12, hd1, hd2⟩ := h
  simp only [toDays, daysBeforeYear]
  have : 365 ≤ 365 * (dt.y - 1) := by omega
  push_cast
  omega

theorem year_ge_two (dt : Date) (h : dt.Valid) (hd : (365 : Int) ≤ toDays dt) :
    2 ≤ dt.y := by
  obtain ⟨hy1, hm1, hm12, hd1, hd2⟩ := h
  by_contra hlt
  have hy1' : dt.y = 1 := by omega
  have key := dbm_dim_le 1 dt.m hm1 hm12
  have hleap1 : isLeap 1 = false := by decide
  rw [hleap1] at key
  simp only [Bool.false_eq_true, if_false] at key
  have hz : daysBeforeYear 1 = 0 := by decide
  simp only [toDays, hy1', hz] at hd
  rw [hy1'] at hd2
  omega

/-! ## Fetcher lemmas -/

theorem emitLoop_eq_take (ls : List String) (c : Nat) :
    emitLoop ls c = ls.take (c + 1) := by
  induction ls generalizing c with
  | nil => simp [emitLoop]
  | cons l ls ih =>
    cases c with
    | zero => simp [emitLoop]
    | succ k => simp [emitLoop, ih]

/-! ## Classifier lemmas -/

theorem evalRecord_ne_mcr (cfg : FilterCfg) (r : Rec) :
    evalRecord cfg r ≠ Category.maxCountReached := by
  unfold evalRecord
  split <;> [skip; split <;> [skip; split <;> [skip; split <;> [skip; split]]]] <;> simp

theorem evalRecord_eq_dbs_iff (cfg : FilterCfg) (r : Rec) :
    evalRecord cfg r = Category.dateBeforeStart ↔ r.ts < cfg.startTs := by
  unfold evalRecord
  split <;> [skip; split <;> [skip; split <;> [skip; split <;> [skip; split]]]] <;> simp_all

theorem sf_cutoff (cfg : FilterCfg) (prior : Nat) (recs : List Rec)
    (hN : cfg.maxCount ≠ 0) (hp : cfg.maxCount ≤ prior) (hne : recs ≠ []) :
    streamFilter cfg prior recs = [Category.maxCountReached] := by
  cases recs with
  | nil => exact absurd rfl hne
  | cons r rs =>
    simp only [streamFilter]
    rw [if_pos ⟨hN, hp⟩]

theorem sf_accepted_le (cfg : FilterCfg) (recs : List Rec) (hN : cfg.maxCount ≠ 0) :
    ∀ prior, prior + (streamFilter cfg prior recs).count Category.accepted
      ≤ max prior cfg.maxCount := by
  induction recs with
  | nil => intro prior; simp [streamFilter]
  | cons r rs ih =>
    intro prior
    simp only [streamFilter]
    split
    · next hcut => simp [List.count_cons]
    · next hcut =>
      have hp : prior < cfg.maxCount := by
        rcases Nat.lt_or_ge prior cfg.maxCount with h | h
        · exact h
        · exact absurd ⟨hN, h⟩ hcut
      split
      · next hdbs => simp [hdbs]
      · next hdbs =>
        by_cases hacc : evalRecord cfg r = Category.accepted
        · have h1 := ih (prior + 1)
          simp [hacc, List.count_cons]
          omega
        · have h1 := ih prior
          simp [hacc, List.count_cons]
          omega

theorem sf_mcr_count (cfg : FilterCfg) (recs : List Rec) (h0 : cfg.maxCount = 0) :
    ∀ prior, (streamFilter cfg prior recs).count Category.maxCountReached = 0 := by
  induction recs with
  | nil => intro prior; simp [streamFilter]
  | cons r rs ih =>
    intro prior
    simp only [streamFilter]
    rw [if_neg (by simp [h0])]
    split
    · next hdbs => simp [hdbs]
    · next hdbs =>
      have hne := evalRecord_ne_mcr cfg r
      simp [List.count_cons, ih, hne, Ne.symm hne]

theorem sf_dbs_mem (cfg : FilterCfg) (recs : List Rec) (h0 : cfg.maxCount = 0) :
    ∀ prior, (∃ r ∈ recs, r.ts < cfg.startTs) →
      Category.dateBeforeStart ∈ streamFilter cfg prior recs := by
  induction recs with
  | nil =>
    rintro prior ⟨r, hr, _⟩
    cases hr
  | cons r rs ih =>
    rintro prior ⟨r', hr', hts⟩
    simp only [streamFilter]
    rw [if_neg (by simp [h0])]
    by_cases hdbs : evalRecord cfg r = Category.dateBeforeStart
    · rw [if_pos hdbs, hdbs]; exact List.mem_singleton.mpr rfl
    · rw [if_neg hdbs]
      rcases List.mem_cons.mp hr' with heq | hmem
      · subst heq
        exact absurd ((evalRecord_eq_dbs_iff cfg r').mpr hts) hdbs
      · exact List.mem_cons_of_mem _ (ih _ ⟨r', hmem, hts⟩)

/-! ## Counts lemmas -/

theorem counts_add_sum (a b : Counts) : (a.add b).sum = a.sum + b.sum := by
  simp only [Counts.add, Counts.sum]
  omega

theorem tally_sum (cs : List Category) : (tally cs).sum = cs.length := by
  induction cs with
  | nil => simp [tally, Counts.sum]
  | cons c cs ih =>
    rcases c <;>
      simp only [tally, Counts.sum, List.count_cons, beq_iff_eq, List.length_cons] at ih ⊢ <;>
      simp <;> omega

theorem tally_accepted (cs : List Category) :
    (tally cs).accepted = cs.count Category.accepted := rfl

theorem tally_mcr (cs : List Category) :
    (tally cs).maxCountReached = cs.count Category.maxCountReached := rfl

theorem counts_add_accepted (a b : Counts) :
    (a.add b).accepted = a.accepted + b.accepted := rfl

theorem counts_add_mcr (a b : Counts) :
    (a.add b).maxCountReached = a.maxCountReached + b.maxCountReached := rfl

/-! ## Orchestrator-loop lemmas -/

theorem searchLogs_sum (cfg : FilterCfg) (arch : Date → Option (List Rec))
    (next : Date → Date) :
    ∀ fuel date totals ex,
      (searchLogs cfg arch next fuel date totals ex).totals.sum + ex
        = totals.sum + (searchLogs cfg arch next fuel date totals ex).examined := by
  intro fuel
  induction fuel with
  | zero => intro date totals ex; simp [searchLogs]
  | succ n ih =>
    intro date totals ex
    simp only [searchLogs]
    rcases harch : arch date with _ | recs
    · simp
    · simp only []
      split
      · next hterm =>
        dsimp only
        rw [counts_add_sum, tally_sum]
        omega
      · next hterm =>
        dsimp only
        have key := ih (next date)
          (totals.add (tally (streamFilter cfg totals.accepted recs)))
          (ex + (streamFilter cfg totals.accepted recs).length)
        rw [counts_add_sum, tally_sum] at key
        omega

theorem runChannels_sum (cfg : FilterCfg) (next : Date → Date) (endDate : Date)
    (fuel : Nat) :
    ∀ archs totals ex,
      (runChannels cfg next endDate fuel archs totals ex).1.sum + ex
        = totals.sum + (runChannels cfg next endDate fuel archs totals ex).2.1 := by
  intro archs
  induction archs with
  | nil => intro totals ex; simp [runChannels]
  | cons arch rest ih =>
    intro totals ex
    simp only [runChannels]
    have k1 := searchLogs_sum cfg arch next fuel endDate totals ex
    have k2 := ih (searchLogs cfg arch next fuel endDate totals ex).totals
      (searchLogs cfg arch next fuel endDate totals ex).examined
    omega

theorem searchLogs_accepted_le (cfg : FilterCfg) (arch : Date → Option (List Rec))
    (next : Date → Date) (hN : cfg.maxCount ≠ 0) :
    ∀ fuel date totals ex, totals.accepted ≤ cfg.maxCount →
      (searchLogs cfg arch next fuel date totals ex).totals.accepted ≤ cfg.maxCount := by
  intro fuel
  induction fuel with
  | zero => intro date totals ex h; simpa [searchLogs] using h
  | succ n ih =>
    intro date totals ex h
    simp only [searchLogs]
    rcases harch : arch date with _ | recs
    · simpa using h
    · simp only []
      have hstep : (totals.add (tally (streamFilter cfg totals.accepted recs))).accepted
          ≤ cfg.maxCount := by
        rw [counts_add_accepted, tally_accepted]
        have := sf_accepted_le cfg recs hN totals.accepted
        omega
      split
      · next hterm => exact hstep
      · next hterm =>
        dsimp only
        exact ih (next date) _ _ hstep

theorem runChannels_accepted_le (cfg : FilterCfg) (next : Date → Date)
    (endDate : Date) (fuel : Nat) (hN : cfg.maxCount ≠ 0) :
    ∀ archs totals ex, totals.accepted ≤ cfg.maxCount →
      (runChannels cfg next endDate fuel archs totals ex).1.accepted ≤ cfg.maxCount := by
  intro archs
  induction archs with
  | nil => intro totals ex h; simpa [runChannels] using h
  | cons arch rest ih =>
    intro totals ex h
    simp only [runChannels]
    exact ih _ _ (searchLogs_accepted_le cfg arch next hN fuel endDate totals ex h)

theorem searchLogs_mcr_zero (cfg : FilterCfg) (arch : Date → Option (List Rec))
    (next : Date → Date) (h0 : cfg.maxCount = 0) :
    ∀ fuel date totals ex, totals.maxCountReached = 0 →
      (searchLogs cfg arch next fuel date totals ex).totals.maxCountReached = 0 := by
  intro fuel
  induction fuel with
  | zero => intro date totals ex h; simpa [searchLogs] using h
  | succ n ih =>
    intro date totals ex h
    simp only [searchLogs]
    rcases harch : arch date with _ | recs
    · simpa using h
    · simp only []
      have hstep : (totals.add (tally (streamFilter cfg totals.accepted recs))).maxCountReached
          = 0 := by
        rw [counts_add_mcr, tally_mcr, sf_mcr_count cfg recs h0 totals.accepted]
        omega
      split
      · next hterm => exact hstep
      · next hterm =>
        dsimp only
        exact ih (next date) _ _ hstep

theorem runChannels_mcr_zero (cfg : FilterCfg) (next : Date → Date)
    (endDate : Date) (fuel : Nat) (h0 : cfg.maxCount = 0) :
    ∀ archs totals ex, totals.maxCountReached = 0 →
      (runChannels cfg next endDate fuel archs totals ex).1.maxCountReached = 0 := by
  intro archs
  induction archs with
  | nil => intro totals ex h; simpa [runChannels] using h
  | cons arch rest ih =>
    intro totals ex h
    simp only [runChannels]
    exact ih _ _ (searchLogs_mcr_zero cfg arch next h0 fuel endDate totals ex h)

theorem searchLogs_fetchError (cfg : FilterCfg) (arch : Date → Option (List Rec))
    (next : Date → Date) (fuel : Nat) (date : Date) (totals : Counts) (ex : Nat)
    (h : arch date = none) :
    searchLogs cfg arch next (fuel + 1) date totals ex
      = ⟨totals, ex, .fetchErrorStop, [date]⟩ := by
  simp [searchLogs, h]

theorem tally_dbs (cs : List Category) :
    (tally cs).dateBeforeStart = cs.count Category.dateBeforeStart := rfl

/-- With no cutoff configured, fetches always succeeding, and every page
dated before the start containing a record older than the start, the
channel-variant paging loop reaches a terminal page within
`(toDays d - toDays startD + 1) + 1` pages, and every page it fetches is
dated at least one day before the start date. -/
theorem searchLogs_terminates (cfg : FilterCfg) (arch : Date → Option (List Rec))
    (startD : Date) (h0 : cfg.maxCount = 0) (_hs : cfg.startTs = toDays startD)
    (hsv : startD.Valid) (hsy : 2 ≤ startD.y)
    (hall : ∀ d, (arch d).isSome = true)
    (hdata : ∀ d recs, arch d = some recs → toDays d < toDays startD →
      ∃ r ∈ recs, r.ts < cfg.startTs) :
    ∀ fuel d totals ex, d.Valid →
      toDays startD - 1 ≤ toDays d →
      (toDays d - toDays startD + 1).toNat + 1 ≤ fuel →
      (searchLogs cfg arch channelNext fuel d totals ex).reason = .terminal ∧
      (searchLogs cfg arch channelNext fuel d totals ex).pages.length
        ≤ (toDays d - toDays startD + 1).toNat + 1 ∧
      ∀ p ∈ (searchLogs cfg arch channelNext fuel d totals ex).pages,
        toDays startD - 1 ≤ toDays p := by
  intro fuel
  induction fuel with
  | zero => intro d totals ex _ _ hf; omega
  | succ n ih =>
    intro d totals ex hdv hlb hf
    rcases harch : arch d with _ | recs
    · have hcontra := hall d
      rw [harch] at hcontra
      simp at hcontra
    · simp only [searchLogs, harch]
      by_cases hbelow : toDays d < toDays startD
      · have hex := hdata d recs harch hbelow
        have hmem := sf_dbs_mem cfg recs h0 totals.accepted hex
        have hcnt : (tally (streamFilter cfg totals.accepted recs)).dateBeforeStart ≠ 0 := by
          rw [tally_dbs]
          have := List.count_pos_iff.mpr hmem
          omega
        rw [if_pos (Or.inl hcnt)]
        refine ⟨rfl, ?_, ?_⟩
        · simp only [List.length_singleton]
          omega
        · intro p hp
          dsimp only at hp
          rcases List.mem_singleton.mp hp with rfl
          exact hlb
      · push_neg at hbelow
        split
        · next hterm =>
          refine ⟨rfl, ?_, ?_⟩
          · simp only [List.length_singleton]
            omega
          · intro p hp
            dsimp only at hp
            rcases List.mem_singleton.mp hp with rfl
            exact hlb
        · next hterm =>
          have hy2 : 2 ≤ d.y :=
            year_ge_two d hdv (le_trans (toDays_lb_of_year startD hsv hsy) hbelow)
          have hstep := toDays_channelNext d hdv hy2
          have hnv := valid_channelNext d hdv hy2
          have ihapp := ih (channelNext d)
            (totals.add (tally (streamFilter cfg totals.accepted recs)))
            (ex + (streamFilter cfg totals.accepted recs).length)
            hnv (by omega) (by omega)
          dsimp only
          refine ⟨ihapp.1, ?_, ?_⟩
          · have hlen := ihapp.2.1
            simp only [List.length_cons]
            omega
          · intro p hp
            simp only [List.mem_cons] at hp
            rcases hp with rfl | hp
            · omega
            · exact ihapp.2.2 p hp

theorem runChannels_length (cfg : FilterCfg) (next : Date → Date) (endDate : Date)
    (fuel : Nat) :
    ∀ archs totals ex,
      (runChannels cfg next endDate fuel archs totals ex).2.2.length = archs.length := by
  intro archs
  induction archs with
  | nil => intro totals ex; simp [runChannels]
  | cons arch rest ih =>
    intro totals ex
    simp only [runChannels]
    simp [ih]

/-! ## Claim theorems -/

/-- C1: every record the Classifier examines resolves exactly one outcome
category, so after any run (any filter configuration, pagination step,
archives and fuel) the sum of the per-category totals in the final
`ProgressState` equals the total number of records examined across all
pages and channels. -/
theorem c1_category_sum (cfg : FilterCfg) (next : Date → Date) (endDate : Date)
    (fuel : Nat) (archs : List (Date → Option (List Rec))) :
    (runChannels cfg next endDate fuel archs Counts.zero 0).1.sum
      = (runChannels cfg next endDate fuel archs Counts.zero 0).2.1 := by
  have key := runChannels_sum cfg next endDate fuel archs Counts.zero 0
  have hz : Counts.zero.sum = 0 := rfl
  omega

/-- C2 counterexample: 2021-03-31 is a valid date, but the per-user
previousPage step `AddDate(0, -1, 0)` yields 2021-03-03 — a date in the
same calendar month as the input, 28 days earlier — because Go
normalizes the nonexistent February 31.  So the per-user step is not
"exactly one calendar month": the result does not even lie in the
previous month. -/
theorem c2_counterexample :
    (Date.mk 2021 3 31).Valid
  ∧ userNext ⟨2021, 3, 31⟩ = ⟨2021, 3, 3⟩
  ∧ (userNext ⟨2021, 3, 31⟩).m = (Date.mk 2021 3 31).m
  ∧ ¬ inMonth 2021 2 (toDays (userNext ⟨2021, 3, 31⟩)) := by
  decide

/-- C2 (amended): for every valid date with year ≥ 2, `previousPage` is
strictly earlier for both variants; the channel-wide step is exactly one
calendar day; the per-user step is 28 to 31 days and lands on the same
day of the previous calendar month whenever that month has a day with
that number, while otherwise Go's normalization rolls the date forward
into the current month (still strictly earlier). -/
theorem c2_amended (dt : Date) (h : dt.Valid) (hy : 2 ≤ dt.y) :
    toDays (channelNext dt) = toDays dt - 1
  ∧ toDays (userNext dt) < toDays dt
  ∧ (dt.d ≤ daysInMonth (prevYM dt.y dt.m).1 (prevYM dt.y dt.m).2 →
      userNext dt = ⟨(prevYM dt.y dt.m).1, (prevYM dt.y dt.m).2, dt.d⟩) := by
  refine ⟨toDays_channelNext dt h hy, ?_, ?_⟩
  · have h1 := (toDays_userNext dt h hy).1
    have h2 := userNextDays_eq dt h hy
    have h3 := dim_lb (prevYM dt.y dt.m).1 (prevYM dt.y dt.m).2
    rw [h1, h2]
    omega
  · intro hfit
    unfold userNext rollForward
    rw [if_pos hfit]

theorem c2_amended_witness :
    toDays (channelNext ⟨2021, 5, 2⟩) = toDays ⟨2021, 5, 2⟩ - 1
  ∧ userNext ⟨2021, 5, 2⟩ = ⟨2021, 4, 2⟩ :=
  ⟨(c2_amended ⟨2021, 5, 2⟩ (by decide) (by decide)).1,
   (c2_amended ⟨2021, 5, 2⟩ (by decide) (by decide)).2.2 (by decide)⟩

/-- C3: the Fetcher reads the cancellation flag only at line boundaries:
when the flag is first observed set at post-emission check `c`, the
emitted records are exactly the first `c + 1` whole lines of the body in
order (so at most one record is delivered after the moment the flag was
set, and the remainder of the body is never drained), the end marker
follows them, and no transport error is reported. -/
theorem c3_cancellation (ls : List String) (c : Nat) :
    (fetchGo (some ls) c).transportError = false
  ∧ (fetchGo (some ls) c).emitted = (ls.take (c + 1)).map some ++ [none]
  ∧ (fetchGo (some ls) c).emitted.length ≤ min ls.length (c + 1) + 1 := by
  refine ⟨rfl, ?_, ?_⟩
  · simp [fetchGo, emitLoop_eq_take]
  · simp only [fetchGo, emitLoop_eq_take, List.length_append, List.length_map,
      List.length_take, List.length_singleton]
    omega

/-- C4 counterexample to "the paging loop stops at the page in which the
Nth acceptance occurs": with `maxResults = 1` and an archive whose every
page consists of a single record the filter accepts, the first (and only
allowed) acceptance happens on the first page `2021-05-02`, yet the loop
fetches a second page `2021-05-01` (whose first record resolves
`MaxCountReached`) before stopping. -/
theorem c4_counterexample :
    (streamFilter ⟨0, false, MatchMode.dontMatch, 1⟩ 0
        [⟨5, true, true, true, false, true⟩]).count Category.accepted = 1
  ∧ (searchLogs ⟨0, false, MatchMode.dontMatch, 1⟩
        (fun _ => some [⟨5, true, true, true, false, true⟩]) channelNext 5
        ⟨2021, 5, 2⟩ Counts.zero 0).pages
      = [⟨2021, 5, 2⟩, ⟨2021, 5, 1⟩]
  ∧ (⟨2021, 5, 1⟩ : Date) ≠ ⟨2021, 5, 2⟩ := by
  decide

/-- C4 (amended): with `maxResults = N > 0` the run-wide `Accepted` total
never exceeds N; `N = 0` means unlimited (no `MaxCountReached` outcome
ever arises); and once the accepted total has reached the non-zero
cutoff, the very next record examined resolves `MaxCountReached` and
ends the page — so the run stops at the page of the Nth acceptance when
a further record follows it on that page, and otherwise on the next
fetched page. -/
theorem c4_amended (cfg : FilterCfg) (next : Date → Date) (endDate : Date)
    (fuel : Nat) (archs : List (Date → Option (List Rec))) :
    (cfg.maxCount ≠ 0 →
      (runChannels cfg next endDate fuel archs Counts.zero 0).1.accepted ≤ cfg.maxCount)
  ∧ (cfg.maxCount = 0 →
      (runChannels cfg next endDate fuel archs Counts.zero 0).1.maxCountReached = 0)
  ∧ (∀ prior recs, cfg.maxCount ≠ 0 → cfg.maxCount ≤ prior → recs ≠ [] →
      streamFilter cfg prior recs = [Category.maxCountReached]) := by
  refine ⟨?_, ?_, ?_⟩
  · intro hN
    exact runChannels_accepted_le cfg next endDate fuel hN archs Counts.zero 0
      (Nat.zero_le _)
  · intro h0
    exact runChannels_mcr_zero cfg next endDate fuel h0 archs Counts.zero 0 rfl
  · intro prior recs hN hp hne
    exact sf_cutoff cfg prior recs hN hp hne

theorem c4_amended_witness :
    (runChannels ⟨0, false, MatchMode.dontMatch, 1⟩ channelNext ⟨2021, 5, 2⟩ 3
        [fun _ => some [⟨5, true, true, true, false, true⟩]] Counts.zero 0).1.accepted ≤ 1
  ∧ streamFilter ⟨0, false, MatchMode.dontMatch, 1⟩ 1 [⟨5, true, true, true, false, true⟩]
      = [Category.maxCountReached] :=
  ⟨(c4_amended ⟨0, false, MatchMode.dontMatch, 1⟩ channelNext ⟨2021, 5, 2⟩ 3
      [fun _ => some [⟨5, true, true, true, false, true⟩]]).1 (by decide),
   (c4_amended ⟨0, false, MatchMode.dontMatch, 1⟩ channelNext ⟨2021, 5, 2⟩ 3
      [fun _ => some [⟨5, true, true, true, false, true⟩]]).2.2 1
      [⟨5, true, true, true, false, true⟩] (by decide) (by decide) (by decide)⟩

/-- C5 counterexample: window start 2021-01-01, end 2021-01-03, channel
variant, every page holding exactly one record timestamped at the page's
own date.  The claim's bound is `ceil((end-start)/step) = 2` pages, but
the loop fetches 4 pages (Jan 3, Jan 2, Jan 1, Dec 31) before
`DateBeforeStart` first resolves, and the last page it fetches is dated
before the configured start time. -/
theorem c5_counterexample :
    (searchLogs ⟨toDays ⟨2021, 1, 1⟩, false, MatchMode.dontMatch, 0⟩
        (fun d => some [⟨toDays d, true, true, true, false, true⟩]) channelNext 10
        ⟨2021, 1, 3⟩ Counts.zero 0).pages
      = [⟨2021, 1, 3⟩, ⟨2021, 1, 2⟩, ⟨2021, 1, 1⟩, ⟨2020, 12, 31⟩]
  ∧ ¬((searchLogs ⟨toDays ⟨2021, 1, 1⟩, false, MatchMode.dontMatch, 0⟩
        (fun d => some [⟨toDays d, true, true, true, false, true⟩]) channelNext 10
        ⟨2021, 1, 3⟩ Counts.zero 0).pages.length ≤ 2)
  ∧ toDays ⟨2020, 12, 31⟩ < toDays ⟨2021, 1, 1⟩ := by
  decide

/-- C5 (amended): successive page dates strictly decrease — by exactly
one day for the channel variant and by one Go-normalized month of 28 to
31 days for the per-user variant — so with fetches succeeding, no
cutoff, and every page dated before the start containing a record older
than the start, the channel-variant loop reaches its `DateBeforeStart`
terminal page within `(end - start in days) + 2` pages (two more than
the claim's `ceil((end-start)/step)`), and never fetches a page dated
more than one step before the configured start. -/
theorem c5_amended :
    (∀ dt : Date, dt.Valid → 2 ≤ dt.y →
      toDays (channelNext dt) = toDays dt - 1
      ∧ toDays dt - 31 ≤ toDays (userNext dt)
      ∧ toDays (userNext dt) ≤ toDays dt - 28)
  ∧ (∀ (cfg : FilterCfg) (arch : Date → Option (List Rec)) (startD endD : Date)
      (fuel : Nat) (totals : Counts) (ex : Nat),
      cfg.maxCount = 0 → cfg.startTs = toDays startD →
      startD.Valid → endD.Valid → 2 ≤ startD.y →
      toDays startD ≤ toDays endD →
      (∀ d, (arch d).isSome = true) →
      (∀ d recs, arch d = some recs → toDays d < toDays startD →
        ∃ r ∈ recs, r.ts < cfg.startTs) →
      (toDays endD - toDays startD).toNat + 2 ≤ fuel →
      (searchLogs cfg arch channelNext fuel endD totals ex).reason = .terminal
      ∧ (searchLogs cfg arch channelNext fuel endD totals ex).pages.length
          ≤ (toDays endD - toDays startD).toNat + 2
      ∧ ∀ p ∈ (searchLogs cfg arch channelNext fuel endD totals ex).pages,
          toDays startD - 1 ≤ toDays p) := by
  constructor
  · intro dt h hy
    refine ⟨toDays_channelNext dt h hy, ?_, ?_⟩
    · have h1 := (toDays_userNext dt h hy).1
      have h2 := userNextDays_eq dt h hy
      have h3 := dim_ub (prevYM dt.y dt.m).1 (prevYM dt.y dt.m).2
      rw [h1, h2]
      omega
    · have h1 := (toDays_userNext dt h hy).1
      have h2 := userNextDays_eq dt h hy
      have h3 := dim_lb (prevYM dt.y dt.m).1 (prevYM dt.y dt.m).2
      rw [h1, h2]
      omega
  · intro cfg arch startD endD fuel totals ex h0 hs hsv hev hsy hse hall hdata hf
    have key := searchLogs_terminates cfg arch startD h0 hs hsv hsy hall hdata
      fuel endD totals ex hev (by omega) (by omega)
    refine ⟨key.1, ?_, key.2.2⟩
    have hlen := key.2.1
    omega

theorem c5_amended_witness :
    (toDays (channelNext ⟨2021, 5, 2⟩) = toDays ⟨2021, 5, 2⟩ - 1
      ∧ toDays ⟨2021, 5, 2⟩ - 31 ≤ toDays (userNext ⟨2021, 5, 2⟩)
      ∧ toDays (userNext ⟨2021, 5, 2⟩) ≤ toDays ⟨2021, 5, 2⟩ - 28)
  ∧ (searchLogs ⟨toDays ⟨2021, 1, 1⟩, false, MatchMode.dontMatch, 0⟩
        (fun _ => some [⟨-1000, true, true, true, false, true⟩]) channelNext 10
        ⟨2021, 1, 3⟩ Counts.zero 0).reason = .terminal :=
  ⟨c5_amended.1 ⟨2021, 5, 2⟩ (by decide) (by decide),
   (c5_amended.2 ⟨toDays ⟨2021, 1, 1⟩, false, MatchMode.dontMatch, 0⟩
      (fun _ => some [⟨-1000, true, true, true, false, true⟩]) ⟨2021, 1, 1⟩
      ⟨2021, 1, 3⟩ 10 Counts.zero 0 rfl rfl (by decide) (by decide) (by decide)
      (by decide) (fun d => rfl)
      (fun d recs h hlt => by
        cases h
        exact ⟨⟨-1000, true, true, true, false, true⟩, by simp, by decide⟩)
      (by decide)).1⟩

/-- C6: `MakeURL` produces bit-exactly the request shapes the spec
prescribes: `{instance}/channel/{channel}/{year}/{month}/{day}?raw&reverse`
for the channel-wide variant and
`{instance}/channel/{channel}/user/{user}/{year}/{month}?raw&reverse`
(`userid/{id}` when the user is an id) for the per-user variant. -/
theorem c6_request_shapes (inst channel user : String) (dt : Date) :
    channelMakeURL inst channel dt = specChannelPageURL inst channel dt.y dt.m dt.d
  ∧ userMakeURL inst channel user false dt = specUserPageURL inst channel user dt.y dt.m
  ∧ userMakeURL inst channel user true dt = specUserIdPageURL inst channel user dt.y dt.m :=
  ⟨rfl, rfl, rfl⟩

/-- C7: when the transport fails (no response body exists), `fetch`
returns the error before starting the reading goroutine: nothing is
emitted on the output channel — no records and no end marker. -/
theorem c7_transport_error (c : Nat) :
    (fetchGo none c).transportError = true ∧ (fetchGo none c).emitted = [] :=
  ⟨rfl, rfl⟩

/-- C8: on a successful fetch that is never cancelled, the Fetcher emits
exactly one record per line of the response body, in body order, and
terminates the stream with the end marker. -/
theorem c8_success_stream (ls : List String) (c : Nat) (h : ls.length ≤ c) :
    (fetchGo (some ls) c).emitted = ls.map some ++ [none]
  ∧ (fetchGo (some ls) c).transportError = false := by
  refine ⟨?_, rfl⟩
  have htake : ls.take (c + 1) = ls := List.take_of_length_le (by omega)
  simp [fetchGo, emitLoop_eq_take, htake]

theorem c8_success_stream_witness :
    (fetchGo (some ["a", "b"]) 5).emitted = ["a", "b"].map some ++ [none]
  ∧ (fetchGo (some ["a", "b"]) 5).transportError = false :=
  c8_success_stream ["a", "b"] 5 (by decide)

/-- C9: a transport failure aborts only the current channel's paging
loop, immediately: the failing page is the last one fetched for that
channel, nothing is retried, the accumulated totals are untouched, and
the stop reason records the error; meanwhile the channel loop of `main`
still produces an outcome for every channel in the list, and the run
always reaches the final summary totals. -/
theorem c9_transport_error_isolation (cfg : FilterCfg) (next : Date → Date) :
    (∀ (arch : Date → Option (List Rec)) date totals ex fuel, arch date = none →
      searchLogs cfg arch next (fuel + 1) date totals ex
        = ⟨totals, ex, .fetchErrorStop, [date]⟩)
  ∧ (∀ endDate fuel archs totals ex,
      (runChannels cfg next endDate fuel archs totals ex).2.2.length
        = archs.length) :=
  ⟨fun arch date totals ex fuel h =>
      searchLogs_fetchError cfg arch next fuel date totals ex h,
   fun endDate fuel archs totals ex =>
      runChannels_length cfg next endDate fuel archs totals ex⟩

theorem c9_witness :
    searchLogs ⟨0, false, MatchMode.dontMatch, 0⟩ (fun _ => none) channelNext 1
        ⟨2021, 5, 2⟩ Counts.zero 0
      = ⟨Counts.zero, 0, .fetchErrorStop, [⟨2021, 5, 2⟩]⟩
  ∧ (runChannels ⟨0, false, MatchMode.dontMatch, 0⟩ channelNext ⟨2021, 5, 2⟩ 1
        [fun _ => none] Counts.zero 0).2.2.length = 1 :=
  ⟨(c9_transport_error_isolation ⟨0, false, MatchMode.dontMatch, 0⟩ channelNext).1
      (fun _ => none) ⟨2021, 5, 2⟩ Counts.zero 0 0 rfl,
   (c9_transport_error_isolation ⟨0, false, MatchMode.dontMatch, 0⟩ channelNext).2
      ⟨2021, 5, 2⟩ 1 [fun _ => none] Counts.zero 0⟩

/-- C10: supplying a concrete, non-regex username makes `main` select the
per-user (month-granularity) API variant and override the filter's
username match mode to `DontMatch`; under `DontMatch` the positive
username check never rejects, so a record can resolve `UserMismatch`
only through the negative-username check. -/
theorem c10_user_variant_dontmatch (user notUser : String) (isRegex : Bool)
    (hu : user ≠ "") (hr : isRegex = false) :
    selectsUserApi user isRegex = true
  ∧ effectiveMatchMode user notUser isRegex = MatchMode.dontMatch
  ∧ (∀ r : Rec, posRejects MatchMode.dontMatch r = false)
  ∧ (∀ (cfg : FilterCfg) (r : Rec), cfg.matchMode = MatchMode.dontMatch →
      evalRecord cfg r = Category.userMismatch → r.negMatches = true) := by
  refine ⟨?_, ?_, fun r => rfl, ?_⟩
  · simp [selectsUserApi, hr, bne_iff_ne, hu]
  · unfold effectiveMatchMode
    rw [if_pos ⟨hu, hr⟩]
  · intro cfg r hmode hev
    unfold evalRecord at hev
    split at hev
    · exact absurd hev (by simp)
    · split at hev
      · exact absurd hev (by simp)
      · split at hev
        · next hneg => exact hneg
        · split at hev
          · next hpos =>
            rw [hmode] at hpos
            exact absurd hpos (by simp [posRejects])
          · split at hev
            · exact absurd hev (by simp)
            · exact absurd hev (by simp)

theorem c10_witness :
    selectsUserApi "forsen" false = true
  ∧ effectiveMatchMode "forsen" "" false = MatchMode.dontMatch
  ∧ (∀ r : Rec, posRejects MatchMode.dontMatch r = false)
  ∧ (∀ (cfg : FilterCfg) (r : Rec), cfg.matchMode = MatchMode.dontMatch →
      evalRecord cfg r = Category.userMismatch → r.negMatches = true) :=
  c10_user_variant_dontmatch "forsen" "" false (by decide) rfl

end Justgrep
